import Mathlib

/-!
Verification of the FlowThing audio analysis pipeline (`src/AudioProcessor.ts`).

The analyzer works on JavaScript numbers (IEEE-754 doubles, with intermediate
storage in `Float32Array`s).  We model a JavaScript number as either NaN, a
signed infinity, or an exact real value.  Rounding and overflow of finite
results are idealized away (finite arithmetic is exact real arithmetic), and
signed zero is idealized to the single real `0`; the special-value behaviour
that the analyzer can actually reach — `0/0 = NaN`, NaN propagation through
`+`, `*`, `/`, `Math.sqrt`, and `Math.min` — is modelled faithfully.
-/

set_option maxHeartbeats 1000000
set_option maxRecDepth 8192

noncomputable section

namespace FlowThing

/-- Model of a JavaScript number: NaN, a signed infinity (`inf true` is `+∞`,
`inf false` is `-∞`), or a finite value idealized as an exact real. -/
inductive JF where
  | nan : JF
  | inf : Bool → JF
  | val : ℝ → JF

open JF

/-- JavaScript unary negation. -/
def jneg : JF → JF
  | nan => nan
  | inf s => inf (!s)
  | val x => val (-x)

/-- JavaScript addition. -/
def jadd : JF → JF → JF
  | nan, _ => nan
  | _, nan => nan
  | inf s, inf t => if s = t then inf s else nan
  | inf s, val _ => inf s
  | val _, inf t => inf t
  | val x, val y => val (x + y)

/-- JavaScript subtraction. -/
def jsub : JF → JF → JF
  | nan, _ => nan
  | _, nan => nan
  | inf s, inf t => if s = t then nan else inf s
  | inf s, val _ => inf s
  | val _, inf t => inf (!t)
  | val x, val y => val (x - y)

/-- JavaScript multiplication. -/
def jmul : JF → JF → JF
  | nan, _ => nan
  | _, nan => nan
  | inf s, inf t => inf (s = t)
  | inf s, val y => if y = 0 then nan else inf (if 0 < y then s else !s)
  | val x, inf t => if x = 0 then nan else inf (if 0 < x then t else !t)
  | val x, val y => val (x * y)

/-- JavaScript division.  The analyzer reaches the `0 / 0 = NaN` case when an
RMS segment is empty. -/
def jdiv : JF → JF → JF
  | nan, _ => nan
  | _, nan => nan
  | inf _, inf _ => nan
  | inf s, val y => if 0 ≤ y then inf s else inf (!s)
  | val _, inf _ => val 0
  | val x, val y =>
      if y = 0 then (if x = 0 then nan else if 0 < x then inf true else inf false)
      else val (x / y)

/-- Model of `Math.sqrt`: NaN on NaN and on negative arguments. -/
def jsqrt : JF → JF
  | nan => nan
  | inf s => if s then inf true else nan
  | val x => if x < 0 then nan else val (Real.sqrt x)

/-- Model of two-argument `Math.min`: NaN if either argument is NaN. -/
def jmin : JF → JF → JF
  | nan, _ => nan
  | _, nan => nan
  | inf s, b => if s then b else inf false
  | val x, inf t => if t then val x else inf false
  | val x, val y => val (min x y)

/-- The number is a finite value. -/
def isVal : JF → Prop
  | val _ => True
  | _ => False

/-- The number is a finite value lying in the closed interval `[0, 1]`. -/
def isUnitVal : JF → Prop
  | val x => 0 ≤ x ∧ x ≤ 1
  | _ => False

@[simp] theorem jadd_val_val (x y : ℝ) : jadd (val x) (val y) = val (x + y) := rfl

@[simp] theorem jsub_val_val (x y : ℝ) : jsub (val x) (val y) = val (x - y) := rfl

@[simp] theorem jmul_val_val (x y : ℝ) : jmul (val x) (val y) = val (x * y) := rfl

@[simp] theorem jneg_val (x : ℝ) : jneg (val x) = val (-x) := rfl

theorem jdiv_val_val_ne (x y : ℝ) (hy : y ≠ 0) : jdiv (val x) (val y) = val (x / y) := by
  simp [jdiv, hy]

@[simp] theorem jdiv_val_zero_zero : jdiv (val 0) (val 0) = nan := by
  simp [jdiv]

theorem jsqrt_val_nonneg (x : ℝ) (hx : 0 ≤ x) : jsqrt (val x) = val (Real.sqrt x) := by
  simp [jsqrt, not_lt.mpr hx]

@[simp] theorem jsqrt_nan : jsqrt nan = nan := rfl

@[simp] theorem jmul_nan_left (b : JF) : jmul nan b = nan := by cases b <;> rfl

@[simp] theorem jmin_val_val (x y : ℝ) : jmin (val x) (val y) = val (min x y) := rfl

@[simp] theorem jmin_val_nan (x : ℝ) : jmin (val x) nan = nan := rfl

@[simp] theorem isVal_val (x : ℝ) : isVal (val x) := trivial

@[simp] theorem not_isVal_nan : ¬ isVal nan := fun h => h

@[simp] theorem not_isUnitVal_nan : ¬ isUnitVal nan := fun h => h

theorem isUnitVal_val {x : ℝ} (h0 : 0 ≤ x) (h1 : x ≤ 1) : isUnitVal (val x) := ⟨h0, h1⟩

@[simp] theorem nan_ne_val (x : ℝ) : (nan : JF) ≠ val x := by
  intro h
  exact JF.noConfusion h

theorem isVal_iff (v : JF) : isVal v ↔ ∃ x, v = val x := by
  cases v with
  | nan => simp [isVal]
  | inf s => simp [isVal]
  | val x => simp [isVal]

/-!
Byte decoding.  `processAudioData` copies the incoming byte array into a
`Uint8Array` (each stored value is reduced modulo 256) and reinterprets the
backing buffer as a `Float32Array` of little-endian IEEE-754 binary32 values.
-/

/-- Decoding of one little-endian IEEE-754 binary32 sample from four bytes
(each taken modulo 256, as `Uint8Array` element assignment does). -/
def decodeFloat32 (b0 b1 b2 b3 : ℕ) : JF :=
  let bits : ℕ := b0 % 256 + 256 * (b1 % 256) + 65536 * (b2 % 256) + 16777216 * (b3 % 256)
  let sign : ℕ := bits / 2 ^ 31
  let ex : ℕ := bits / 2 ^ 23 % 256
  let man : ℕ := bits % 2 ^ 23
  if ex = 255 then (if man = 0 then inf (sign == 0) else nan)
  else
    let mag : ℝ :=
      if ex = 0 then (man : ℝ) / 2 ^ 149
      else ((2 ^ 23 + man : ℕ) : ℝ) * 2 ^ ((ex : ℤ) - 150)
    val ((if sign = 0 then 1 else -1) * mag)

/-- Decoded sample frame: the bytes reinterpreted in 4-byte groups.  A
`Float32Array` view has `floor(byteLength / 4)` elements; this function is
only reached on byte lengths that are multiples of 4 (see
`processAudioData`). -/
def decodeFrame : List ℕ → List JF
  | b0 :: b1 :: b2 :: b3 :: rest => decodeFloat32 b0 b1 b2 b3 :: decodeFrame rest
  | _ => []

/-!
RMS path (`processAudioDataRMS`, `src/AudioProcessor.ts` lines 96–116).
`numBins = 128` is the class constant.
-/

/-- Value of `samplesPerBin = Math.floor(float32Array.length / this.numBins)`
for a frame of length `n`. -/
def samplesPerBin (n : ℕ) : ℕ := n / 128

/-- Value of `startIdx = i * samplesPerBin` for bin `i`. -/
def startIdx (n i : ℕ) : ℕ := i * samplesPerBin n

/-- Value of `endIdx = Math.min(startIdx + samplesPerBin, float32Array.length)`
for bin `i`. -/
def endIdx (n i : ℕ) : ℕ := min (startIdx n i + samplesPerBin n) n

/-- Accumulation loop `for (j = startIdx; j < endIdx; j++) sum += a[j] * a[j]`
starting from `sum = 0`.  All reads are in bounds; out-of-range list reads
default to `nan` (JavaScript `undefined`), which never occurs here. -/
def segSum (f : List JF) (s e : ℕ) : JF :=
  (List.range' s (e - s)).foldl (fun acc j => jadd acc (jmul (f.getD j nan) (f.getD j nan))) (val 0)

/-- One RMS output bin:
`Math.min(1, Math.sqrt(sum / (endIdx - startIdx)) * 2)`.  The subtraction
`endIdx - startIdx` is JavaScript number subtraction. -/
def rmsBin (f : List JF) (i : ℕ) : JF :=
  let s := startIdx f.length i
  let e := endIdx f.length i
  let rms := jsqrt (jdiv (segSum f s e) (jsub (val (e : ℝ)) (val (s : ℝ))))
  jmin (val 1) (jmul rms (val 2))

/-- The RMS analysis path: 128 bins pushed in order `i = 0, …, 127`. -/
def processAudioDataRMS (f : List JF) : List JF :=
  (List.range 128).map (rmsBin f)

/-!
FFT path (`processAudioDataFFT` and the private `fft`,
`src/AudioProcessor.ts` lines 5–93).  `fftSize = 256`, `numBins = 128`.
The two working `Float32Array`s are modelled as total functions `ℕ → JF`
(zero-initialized, all loop accesses in `[0, 256)`).
-/

/-- Working state of the in-place transform: the `real` and `imag` arrays. -/
structure FState where
  re : ℕ → JF
  im : ℕ → JF

/-- Swap of positions `i` and `j` of an array. -/
def updSwap (a : ℕ → JF) (i j : ℕ) : ℕ → JF :=
  Function.update (Function.update a i (a j)) j (a i)

/-- The reversed-carry update of the bit-reversal index:
`k = n/2; while (k <= j) { j -= k; k /= 2; } ; j += k`, returning the final
`(j, k)` before the increment.  In the source `k` is a JavaScript number; the
guard on `k = 0` below only differs from the source on states in which `k`
would become the fraction `1/2`, which never happens for the call pattern of a
256-point transform (the carry always stops while `k ≥ 1`). -/
def bitrevCarry : ℕ → ℕ → ℕ × ℕ
  | j, 0 => (j, 0)
  | j, k + 1 => if k + 1 ≤ j then bitrevCarry (j - (k + 1)) ((k + 1) / 2) else (j, k + 1)

/-- One iteration of the bit-reversal permutation loop body at index `i`:
conditional swap of `i` and `j` in both arrays, then the reversed-carry
increment of `j`. -/
def bitrevStep (n : ℕ) (s : FState × ℕ) (i : ℕ) : FState × ℕ :=
  let st := s.1
  let j := s.2
  let st2 : FState := if i < j then ⟨updSwap st.re i j, updSwap st.im i j⟩ else st
  let jk := bitrevCarry j (n / 2)
  (st2, jk.1 + jk.2)

/-- The bit-reversal permutation: `for (i = 0; i < n - 1; i++) …` with `j`
starting at `0`. -/
def bitrev (n : ℕ) (st : FState) : FState :=
  ((List.range (n - 1)).foldl (bitrevStep n) (st, 0)).1

/-- One butterfly at array index `j` with twiddle index `k` for a pass of
half-size `half`:
`tpre = re[j+half]·cos θ + im[j+half]·sin θ`,
`tpim = −re[j+half]·sin θ + im[j+half]·cos θ` with `θ = k·π/half`, then
`re[j+half] = re[j] − tpre`, `im[j+half] = im[j] − tpim`,
`re[j] += tpre`, `im[j] += tpim`. -/
def bflyOp (half : ℕ) (st : FState) (j k : ℕ) : FState :=
  let θ : ℝ := k * (Real.pi / half)
  let tpre := jadd (jmul (st.re (j + half)) (val (Real.cos θ)))
                   (jmul (st.im (j + half)) (val (Real.sin θ)))
  let tpim := jadd (jmul (jneg (st.re (j + half))) (val (Real.sin θ)))
                   (jmul (st.im (j + half)) (val (Real.cos θ)))
  { re := Function.update (Function.update st.re (j + half) (jsub (st.re j) tpre)) j
            (jadd (st.re j) tpre)
    im := Function.update (Function.update st.im (j + half) (jsub (st.im j) tpim)) j
            (jadd (st.im j) tpim) }

/-- One butterfly pass for a given `size`: the outer loop visits
`i = 0, size, 2·size, …  < n` and the inner loop runs `j` from `i` to
`i + size/2 − 1` with twiddle index `k = j − i`. -/
def bflyPass (n size : ℕ) (st : FState) : FState :=
  ((List.range (n / size)).map (fun b => b * size)).foldl
    (fun s i => (List.range (size / 2)).foldl (fun s2 k => bflyOp (size / 2) s2 (i + k) k) s)
    st

/-- The in-place radix-2 decimation-in-time transform: bit-reversal followed
by the butterfly passes `size = 2, 4, …, n`.  The source doubles `size` while
`size ≤ n`; for `n` a power of two (the analyzer always passes `n = 256`)
those are exactly the sizes `2 ^ (s + 1)` for `s < log2 n`. -/
def fftRun (n : ℕ) (st : FState) : FState :=
  ((List.range (Nat.log2 n)).map (fun s => 2 ^ (s + 1))).foldl
    (fun acc size => bflyPass n size acc) (bitrev n st)

/-- The Hann window coefficient `0.5 * (1 - Math.cos(2π·i/256))` at index
`i`. -/
def hann (i : ℕ) : ℝ := 0.5 * (1 - Real.cos (2 * Real.pi * i / 256))

/-- The padding loop filling `inputData`:
`inputData[i] = i < float32Array.length ? float32Array[i] : 0` for
`i < 256`; the array is zero-initialized. -/
def paddedInput (f : List JF) (i : ℕ) : JF :=
  if i < 256 then (if i < f.length then f.getD i nan else val 0) else val 0

/-- The in-place windowing loop: `inputData[i] *= windowValue` for
`i < 256`. -/
def windowedInput (f : List JF) : ℕ → JF :=
  (List.range 256).foldl (fun a i => Function.update a i (jmul (a i) (val (hann i))))
    (paddedInput f)

/-- The state handed to the transform: `real` is a copy of the windowed
input, `imag` is 256 zeroes (`new Float32Array(256).fill(0)`). -/
def initState (f : List JF) : FState :=
  ⟨windowedInput f, fun _ => val 0⟩

/-- Raw magnitude spectrum: `magnitudes[i] = Math.sqrt(re[i]² + im[i]²)`
computed from the transformed state (used for `i < 128`). -/
def fftMags (f : List JF) (i : ℕ) : JF :=
  let st := fftRun 256 (initState f)
  jsqrt (jadd (jmul (st.re i) (st.re i)) (jmul (st.im i) (st.im i)))

/-- Value of `binStart = Math.floor(Math.pow(i / 128, 2) * 128)` (with
`numBins = 128` and `maxFreqBin = 128`). -/
def binStart (i : ℕ) : ℕ := ⌊((i : ℝ) / 128) ^ 2 * 128⌋₊

/-- Value of `binEnd = Math.floor(Math.pow((i + 1) / 128, 2) * 128)`. -/
def binEnd (i : ℕ) : ℕ := ⌊(((i : ℝ) + 1) / 128) ^ 2 * 128⌋₊

/-- One FFT output bin: the loop
`for (j = binStart; j < binEnd && j < 128; j++) { sum += magnitudes[j]; count++ }`
followed by `average = count > 0 ? sum / count : 0` and
`Math.min(1, average * 4)`. -/
def fftBinValue (mag : ℕ → JF) (i : ℕ) : JF :=
  let s := binStart i
  let e := min (binEnd i) 128
  let sum := (List.range' s (e - s)).foldl (fun a j => jadd a (mag j)) (val 0)
  let count := e - s
  let average := if 0 < count then jdiv sum (val (count : ℝ)) else val 0
  jmin (val 1) (jmul average (val 4))

/-- The FFT analysis path: 128 grouped bins pushed in order `i = 0, …, 127`. -/
def processAudioDataFFT (f : List JF) : List JF :=
  (List.range 128).map (fun i => fftBinValue (fftMags f) i)

/-!
Entry point (`processAudioData`, `src/AudioProcessor.ts` lines 119–141).
-/

/-- The analysis method selector (`'fft' | 'rms'`). -/
inductive AMethod where
  | fft : AMethod
  | rms : AMethod

/-- A thrown JavaScript exception.  `new Float32Array(buffer)` throws a
`RangeError` when the byte length of `buffer` is not a multiple of 4. -/
inductive JsError where
  | rangeError : JsError

/-- Entry point `processAudioData(audioStreamData, analysisMethod)`.  `none`
models an absent `data` field.  An empty or absent byte array returns `[]`;
otherwise the bytes are reinterpreted as a `Float32Array` — which throws a
`RangeError` when the byte count is not a multiple of 4 — and the selected
path is run on the decoded frame. -/
def processAudioData (data : Option (List ℕ)) (method : AMethod) : Except JsError (List JF) :=
  match data with
  | none => .ok []
  | some bytes =>
    if bytes.length = 0 then .ok []
    else if bytes.length % 4 ≠ 0 then .error .rangeError
    else
      let f := decodeFrame bytes
      match method with
      | .fft => .ok (processAudioDataFFT f)
      | .rms => .ok (processAudioDataRMS f)

/-!
General helper lemmas.
-/

theorem foldl_preserve {σ α : Type} (P : σ → Prop) (f : σ → α → σ)
    (h : ∀ s a, P s → P (f s a)) :
    ∀ (l : List α) (s : σ), P s → P (l.foldl f s) := by
  intro l
  induction l with
  | nil => intro s hs; simpa using hs
  | cons x xs ih => intro s hs; rw [List.foldl_cons]; exact ih _ (h s x hs)

theorem foldl_step_congr (step1 step2 : JF → ℕ → JF) :
    ∀ (l : List ℕ) (a : JF), (∀ x j, j ∈ l → step1 x j = step2 x j) →
      l.foldl step1 a = l.foldl step2 a := by
  intro l
  induction l with
  | nil => intro a _; rfl
  | cons x xs ih =>
      intro a h
      rw [List.foldl_cons, List.foldl_cons, h a x (List.mem_cons_self x xs)]
      exact ih _ (fun y j hj => h y j (List.mem_cons_of_mem x hj))

theorem foldl_jadd_exact (G : ℕ → JF) (g : ℕ → ℝ) :
    ∀ (l : List ℕ) (c : ℝ), (∀ j ∈ l, G j = val (g j)) →
      l.foldl (fun acc j => jadd acc (G j)) (val c) = val (c + (l.map g).sum) := by
  intro l
  induction l with
  | nil => intro c _; simp
  | cons x xs ih =>
      intro c h
      rw [List.foldl_cons, h x (List.mem_cons_self x xs), jadd_val_val,
        ih (c + g x) (fun j hj => h j (List.mem_cons_of_mem x hj))]
      rw [List.map_cons, List.sum_cons]
      ring_nf

theorem foldl_jadd_val_nonneg (G : ℕ → JF) :
    ∀ (l : List ℕ) (c : ℝ), 0 ≤ c → (∀ j ∈ l, ∃ y, G j = val y ∧ 0 ≤ y) →
      ∃ S, l.foldl (fun acc j => jadd acc (G j)) (val c) = val S ∧ 0 ≤ S := by
  intro l
  induction l with
  | nil => intro c hc _; exact ⟨c, by simp, hc⟩
  | cons x xs ih =>
      intro c hc h
      obtain ⟨y, hy, hy0⟩ := h x (List.mem_cons_self x xs)
      rw [List.foldl_cons, hy, jadd_val_val]
      exact ih (c + y) (by linarith) (fun j hj => h j (List.mem_cons_of_mem x hj))

theorem getD_map_range (F : ℕ → JF) (d : JF) {i n : ℕ} (h : i < n) :
    ((List.range n).map F).getD i d = F i := by
  rw [List.getD_eq_getElem?_getD, List.getElem?_map, List.getElem?_range h]
  rfl

theorem foldl_update_apply (g : ℕ → JF → JF) (A : ℕ → JF) (n i : ℕ) :
    ((List.range n).foldl (fun a j => Function.update a j (g j (a j))) A) i
      = if i < n then g i (A i) else A i := by
  induction n with
  | zero => simp
  | succ m ih =>
      rw [List.range_succ, List.foldl_append, List.foldl_cons, List.foldl_nil]
      by_cases him : i = m
      · subst him
        rw [Function.update_same, ih]
        simp [Nat.lt_irrefl]
      · rw [Function.update_noteq him, ih]
        rcases Nat.lt_trichotomy i m with hlt | heq | hgt
        · simp [hlt, Nat.lt_succ_of_lt hlt]
        · exact absurd heq him
        · have h1 : ¬ i < m := by omega
          have h2 : ¬ i < m + 1 := by omega
          simp [h1, h2]

/-!
Structural facts about the RMS segmentation.
-/

theorem covered_le (n : ℕ) : 128 * samplesPerBin n ≤ n := by
  have h := Nat.div_mul_le_self n 128
  simp only [samplesPerBin]
  omega

theorem succ_mul_spb_le (n i : ℕ) (hi : i < 128) :
    i * samplesPerBin n + samplesPerBin n ≤ n := by
  have h1 := covered_le n
  have h2 : i * samplesPerBin n + samplesPerBin n = (i + 1) * samplesPerBin n := by ring
  have h3 : (i + 1) * samplesPerBin n ≤ 128 * samplesPerBin n :=
    Nat.mul_le_mul_right _ (by omega)
  omega

theorem startIdx_le_endIdx {n : ℕ} (i : ℕ) (hi : i < 128) : startIdx n i ≤ endIdx n i := by
  have h := succ_mul_spb_le n i hi
  simp only [startIdx, endIdx]
  omega

theorem endIdx_eq_of_le {n : ℕ} (i : ℕ) (hi : i < 128) :
    endIdx n i = startIdx n i + samplesPerBin n := by
  have h := succ_mul_spb_le n i hi
  simp only [startIdx, endIdx]
  omega

theorem segment_mem_lt_covered {n i j : ℕ} (hi : i < 128) (hs : startIdx n i ≤ j)
    (he : j < endIdx n i) : j < 128 * samplesPerBin n := by
  have h2 : i * samplesPerBin n + samplesPerBin n = (i + 1) * samplesPerBin n := by ring
  have h3 : (i + 1) * samplesPerBin n ≤ 128 * samplesPerBin n :=
    Nat.mul_le_mul_right _ (by omega)
  simp only [startIdx, endIdx] at hs he
  omega

theorem covered_mem_segment {n j : ℕ} (hj : j < 128 * samplesPerBin n) :
    ∃ i, i < 128 ∧ startIdx n i ≤ j ∧ j < endIdx n i := by
  have hpos : 0 < samplesPerBin n := by
    by_contra h0
    have hz : samplesPerBin n = 0 := by omega
    rw [hz] at hj
    omega
  have hcov := covered_le n
  have h1 := Nat.div_add_mod j (samplesPerBin n)
  have h2 := Nat.mod_lt j hpos
  have hcomm : j / samplesPerBin n * samplesPerBin n = samplesPerBin n * (j / samplesPerBin n) :=
    Nat.mul_comm _ _
  refine ⟨j / samplesPerBin n, ?_, ?_, ?_⟩
  · exact Nat.div_lt_of_lt_mul (by omega)
  · simp only [startIdx]
    omega
  · simp only [endIdx, startIdx]
    omega

/-- Length of the RMS output: 128 bins. -/
theorem processAudioDataRMS_length (f : List JF) : (processAudioDataRMS f).length = 128 := by
  simp [processAudioDataRMS]

/-- Length of the FFT output: 128 bins. -/
theorem processAudioDataFFT_length (f : List JF) : (processAudioDataFFT f).length = 128 := by
  simp [processAudioDataFFT]

/-- An RMS bin whose segment is empty evaluates `Math.sqrt(0 / 0)`: the bin
value is NaN. -/
theorem rmsBin_nan_of_empty (f : List JF) (i : ℕ)
    (h : endIdx f.length i = startIdx f.length i) : rmsBin f i = nan := by
  simp only [rmsBin, segSum]
  rw [h, Nat.sub_self, List.range'_zero, List.foldl_nil, jsub_val_val, sub_self,
    jdiv_val_zero_zero, jsqrt_nan, jmul_nan_left, jmin_val_nan]

/-- On a frame of fewer than 128 samples every segment is empty. -/
theorem endIdx_eq_startIdx_of_short {n : ℕ} (i : ℕ) (hn : n < 128) :
    endIdx n i = startIdx n i := by
  unfold endIdx startIdx samplesPerBin
  have h0 : n / 128 = 0 := Nat.div_eq_of_lt hn
  simp [h0]

/-!
Claims C5, C6 and C10: RMS segmentation behaviour.
-/

/-- C5 (counterexample): on the one-sample frame `[val 0]`, bin `0` has an
empty segment (`endIdx − startIdx = 0`), yet the RMS path outputs NaN for it,
not `0`: the division `0 / 0` does happen (producing NaN under IEEE
semantics) and `Math.min(1, NaN)` is NaN. -/
theorem c5_counterexample :
    endIdx 1 0 = startIdx 1 0 ∧
      (processAudioDataRMS [val 0]).getD 0 (val 0) = nan ∧
      (processAudioDataRMS [val 0]).getD 0 (val 0) ≠ val 0 := by
  have hbin : (processAudioDataRMS [val 0]).getD 0 (val 0) = nan := by
    simp only [processAudioDataRMS]
    rw [getD_map_range _ _ (by norm_num)]
    exact rmsBin_nan_of_empty [val 0] 0 (by decide)
  refine ⟨by decide, hbin, ?_⟩
  rw [hbin]
  simp

/-- C5 (amended): in the RMS path, a bin whose segment length
`endIdx − startIdx` is `0` evaluates `sqrt(0 / 0)`: the division by zero does
occur and the bin value is NaN, not `0` (no exception is raised). -/
theorem c5_theorem (f : List JF) (i : ℕ)
    (h : endIdx f.length i = startIdx f.length i) : rmsBin f i = nan :=
  rmsBin_nan_of_empty f i h

/-- C5 (witness): the amended statement applied to the concrete frame
`[val 0]` at bin `0`. -/
theorem c5_witness :
    endIdx (List.length [val 0]) 0 = startIdx (List.length [val 0]) 0 ∧
      rmsBin [val 0] 0 = nan :=
  ⟨by decide, c5_theorem [val 0] 0 (by decide)⟩

/-- C6 (counterexample): for a decoded frame of length 129 the 128 RMS
segments do not cover the whole frame — no segment contains sample index
128. -/
theorem c6_counterexample :
    ¬ (∀ j, j < 129 → ∃ i, i < 128 ∧ startIdx 129 i ≤ j ∧ j < endIdx 129 i) := by
  intro h
  obtain ⟨i, hi, h1, h2⟩ := h 128 (by norm_num)
  have hspb : samplesPerBin 129 = 1 := by decide
  simp only [startIdx, endIdx, hspb, mul_one] at h1 h2
  omega

/-- C6 (amended): the 128 RMS segments jointly cover exactly the first
`128 · floor(n / 128)` sample indices of a frame of length `n`: every index
below that bound lies in some segment, and every index inside some segment
lies below that bound (so the trailing `n mod 128·floor(n/128)` samples —
the whole frame when `n < 128` — belong to no segment). -/
theorem c6_theorem (n : ℕ) :
    (∀ j, j < 128 * samplesPerBin n → ∃ i, i < 128 ∧ startIdx n i ≤ j ∧ j < endIdx n i) ∧
      (∀ i j, i < 128 → startIdx n i ≤ j → j < endIdx n i → j < 128 * samplesPerBin n) :=
  ⟨fun _ hj => covered_mem_segment hj,
   fun _ _ hi hs he => segment_mem_lt_covered hi hs he⟩

/-- C6 (witness): on a frame of length 256, sample index 130 lies in some
segment. -/
theorem c6_witness : ∃ i, i < 128 ∧ startIdx 256 i ≤ 130 ∧ 130 < endIdx 256 i :=
  (c6_theorem 256).1 130 (by decide)

/-- C10: the RMS output depends only on the first `128 · floor(n / 128)`
decoded samples — two frames of equal length that agree on those indices
produce equal outputs, whatever their later samples are. -/
theorem c10_theorem (f g : List JF) (hlen : f.length = g.length)
    (hagree : ∀ j, j < 128 * samplesPerBin f.length → f.getD j nan = g.getD j nan) :
    processAudioDataRMS f = processAudioDataRMS g := by
  simp only [processAudioDataRMS]
  apply List.map_congr_left
  intro i hi
  have hi128 : i < 128 := List.mem_range.mp hi
  have hse := startIdx_le_endIdx (n := f.length) i hi128
  have hseg : segSum f (startIdx f.length i) (endIdx f.length i)
      = segSum g (startIdx f.length i) (endIdx f.length i) := by
    apply foldl_step_congr
    intro x j hj
    have hj2 := List.mem_range'_1.mp hj
    have hjs : startIdx f.length i ≤ j := hj2.1
    have hje : j < endIdx f.length i := by omega
    rw [hagree j (segment_mem_lt_covered hi128 hjs hje)]
  simp only [rmsBin, ← hlen, hseg]

/-- C10 (witness): the theorem applied to the one-sample frames `[val 0]`
and `[nan]` — no sample index is covered, so the outputs coincide. -/
theorem c10_witness : processAudioDataRMS [val 0] = processAudioDataRMS [nan] :=
  c10_theorem [val 0] [nan] rfl (by
    intro j hj
    have h1 : samplesPerBin (List.length [val 0]) = 0 := by decide
    rw [h1] at hj
    omega)

/-!
Byte-decoding lemmas and the entry-point claims C2, C3, C4.
-/

theorem decodeFloat32_zero : decodeFloat32 0 0 0 0 = val 0 := by
  simp only [decodeFloat32]
  norm_num

theorem decodeFrame_replicate_zero (k : ℕ) :
    decodeFrame (List.replicate (4 * k) 0) = List.replicate k (val 0) := by
  induction k with
  | zero => rfl
  | succ m ih =>
      have h1 : List.replicate (4 * (m + 1)) (0 : ℕ)
          = 0 :: 0 :: 0 :: 0 :: List.replicate (4 * m) 0 := by
        rw [show 4 * (m + 1) = 4 + 4 * m by ring, List.replicate_add]
        rfl
      rw [h1]
      show decodeFloat32 0 0 0 0 :: decodeFrame (List.replicate (4 * m) 0)
          = List.replicate (m + 1) (val 0)
      rw [decodeFloat32_zero, ih, List.replicate_succ]

/-- On a byte count that is a multiple of 4 and nonzero, the entry point
reaches the selected analysis path. -/
theorem processAudioData_ok (bytes : List ℕ) (m : AMethod) (hne : bytes.length ≠ 0)
    (hmod : bytes.length % 4 = 0) :
    processAudioData (some bytes) m
      = .ok (match m with
             | .fft => processAudioDataFFT (decodeFrame bytes)
             | .rms => processAudioDataRMS (decodeFrame bytes)) := by
  simp only [processAudioData, if_neg hne]
  rw [if_neg (by omega)]
  cases m <;> rfl

/-- C2 (counterexample): on the 3-byte buffer `[0, 1, 2]` (a length that is
not a multiple of 4) the entry point does not return normally: the
`Float32Array` construction throws a `RangeError`. -/
theorem c2_counterexample : (processAudioData (some [0, 1, 2]) AMethod.fft).isOk = false := rfl

/-- C2 (amended): `processAudioData` returns normally on absent data and on
every byte buffer whose length is a multiple of 4 (including all-zero
buffers and buffers shorter than one 256-sample frame); buffers of other
lengths make the `Float32Array` construction throw a `RangeError`. -/
theorem c2_theorem (data : Option (List ℕ)) (m : AMethod)
    (h : (data.getD []).length % 4 = 0) : (processAudioData data m).isOk = true := by
  cases data with
  | none => rfl
  | some bytes =>
      by_cases hne : bytes.length = 0
      · simp only [processAudioData, if_pos hne]
        rfl
      · rw [processAudioData_ok bytes m hne (by simpa using h)]
        rfl

/-- C2 (witness): the amended statement applied to the all-zero 8-byte
buffer (shorter than one analysis frame) under the RMS method. -/
theorem c2_witness :
    ((some [0, 0, 0, 0, 0, 0, 0, 0] : Option (List ℕ)).getD []).length % 4 = 0 ∧
      (processAudioData (some [0, 0, 0, 0, 0, 0, 0, 0]) AMethod.rms).isOk = true :=
  ⟨by decide, c2_theorem (some [0, 0, 0, 0, 0, 0, 0, 0]) AMethod.rms (by decide)⟩

/-- C3 (counterexample): a 5-byte buffer is not processed like its first 4
bytes: the call on the 5-byte buffer throws a `RangeError` while the call on
the 4-byte prefix returns a vector. -/
theorem c3_counterexample :
    processAudioData (some [0, 0, 0, 0, 7]) AMethod.rms
      ≠ processAudioData (some [0, 0, 0, 0]) AMethod.rms := by
  intro h
  have ha : (processAudioData (some [0, 0, 0, 0, 7]) AMethod.rms).isOk = false := rfl
  have hb : (processAudioData (some [0, 0, 0, 0]) AMethod.rms).isOk = true := rfl
  rw [h, hb] at ha
  exact Bool.noConfusion ha

/-- C3 (amended): a buffer whose byte length is not a multiple of 4 is not
silently truncated — the `Float32Array` construction raises a `RangeError`
and no vector is produced. -/
theorem c3_theorem (bytes : List ℕ) (m : AMethod) (h : bytes.length % 4 ≠ 0) :
    processAudioData (some bytes) m = .error JsError.rangeError := by
  have hne : bytes.length ≠ 0 := by
    intro h0
    rw [h0] at h
    exact h rfl
  simp only [processAudioData, if_neg hne]
  rw [if_pos h]

/-- C3 (witness): the amended statement applied to the 1-byte buffer `[0]`
under the RMS method. -/
theorem c3_witness :
    (List.length [(0 : ℕ)]) % 4 ≠ 0 ∧
      processAudioData (some [0]) AMethod.rms = .error JsError.rangeError :=
  ⟨by decide, c3_theorem [0] AMethod.rms (by decide)⟩

/-- C4 (counterexample): the 1-byte buffer is non-empty, yet no 128-element
vector is returned — the call throws a `RangeError`. -/
theorem c4_counterexample : (processAudioData (some [0]) AMethod.fft).isOk = false := rfl

/-- C4 (amended): for a non-empty buffer whose length is a multiple of 4 the
returned vector has exactly 128 elements under either method; for an empty
or absent input the result is the empty vector, returned normally; non-empty
buffers of other lengths raise a `RangeError` instead of returning. -/
theorem c4_theorem (bytes : List ℕ) (m : AMethod) :
    (bytes.length % 4 = 0 → bytes ≠ [] →
        ∃ v, processAudioData (some bytes) m = .ok v ∧ v.length = 128) ∧
      processAudioData (some []) m = .ok [] ∧
      processAudioData none m = .ok [] := by
  refine ⟨?_, rfl, rfl⟩
  intro hmod hne
  have hlen : bytes.length ≠ 0 := fun h0 => hne (List.length_eq_zero.mp h0)
  rw [processAudioData_ok bytes m hlen hmod]
  cases m with
  | fft => exact ⟨_, rfl, processAudioDataFFT_length _⟩
  | rms => exact ⟨_, rfl, processAudioDataRMS_length _⟩

/-- C4 (witness): the amended statement applied to the 4-byte zero buffer
under the FFT method. -/
theorem c4_witness :
    (List.length [(0 : ℕ), 0, 0, 0]) % 4 = 0 ∧ ([(0 : ℕ), 0, 0, 0] ≠ []) ∧
      ∃ v, processAudioData (some [0, 0, 0, 0]) AMethod.fft = .ok v ∧ v.length = 128 :=
  ⟨by decide, by decide, (c4_theorem [0, 0, 0, 0] AMethod.fft).1 (by decide) (by decide)⟩

/-!
Claim C8: constant-amplitude RMS scaling.
-/

theorem rmsBin_const (f : List JF) (a : ℝ)
    (hconst : ∀ s ∈ f, s = val a) (hn : 128 ≤ f.length) (i : ℕ) (hi : i < 128) :
    rmsBin f i = val (min 1 (2 * |a|)) := by
  have hspb : 0 < samplesPerBin f.length := by
    simp only [samplesPerBin]
    exact Nat.div_pos hn (by norm_num)
  have hbound := succ_mul_spb_le f.length i hi
  have he : endIdx f.length i = startIdx f.length i + samplesPerBin f.length :=
    endIdx_eq_of_le i hi
  have hgetD : ∀ j ∈ List.range' (startIdx f.length i) (samplesPerBin f.length),
      jmul (f.getD j nan) (f.getD j nan) = val (a * a) := by
    intro j hj
    have hj2 := List.mem_range'_1.mp hj
    have hjlt : j < f.length := by
      have hsi : startIdx f.length i = i * samplesPerBin f.length := rfl
      omega
    have hmem : f.getD j nan = val a := by
      rw [List.getD_eq_getElem f nan hjlt]
      exact hconst _ (List.getElem_mem hjlt)
    rw [hmem, jmul_val_val]
  have hsum : segSum f (startIdx f.length i) (endIdx f.length i)
      = val (samplesPerBin f.length * (a * a)) := by
    simp only [segSum]
    rw [he, Nat.add_sub_cancel_left]
    rw [foldl_jadd_exact _ (fun _ => a * a) _ 0 hgetD]
    congr 1
    rw [List.map_const', List.sum_replicate, List.length_range', nsmul_eq_mul, zero_add]
  simp only [rmsBin]
  rw [hsum, he, jsub_val_val]
  have hcast : ((startIdx f.length i + samplesPerBin f.length : ℕ) : ℝ)
      - ((startIdx f.length i : ℕ) : ℝ) = ((samplesPerBin f.length : ℕ) : ℝ) := by
    push_cast
    ring
  rw [hcast]
  have hden : ((samplesPerBin f.length : ℕ) : ℝ) ≠ 0 := by
    exact_mod_cast Nat.pos_iff_ne_zero.mp hspb
  rw [jdiv_val_val_ne _ _ hden, mul_div_cancel_left₀ _ hden,
    jsqrt_val_nonneg _ (mul_self_nonneg a)]
  have habs : Real.sqrt (a * a) = |a| := by
    rw [show a * a = a ^ 2 by ring]
    exact Real.sqrt_sq_eq_abs a
  rw [habs, jmul_val_val, jmin_val_val, mul_comm |a| 2]

theorem rms_const_frame (f : List JF) (a : ℝ)
    (hconst : ∀ s ∈ f, s = val a) (hn : 128 ≤ f.length) :
    processAudioDataRMS f = List.replicate 128 (val (min 1 (2 * |a|))) := by
  refine List.eq_replicate_iff.mpr ⟨processAudioDataRMS_length f, ?_⟩
  intro x hx
  simp only [processAudioDataRMS, List.mem_map, List.mem_range] at hx
  obtain ⟨i, hi, rfl⟩ := hx
  exact rmsBin_const f a hconst hn i hi

/-- C8 (counterexample): the all-zero 8-byte buffer decodes to two samples
all equal to the constant `0` (and `|0| ≤ 1/2`), but the RMS method does not
return 128 bins equal to `min(1, 2·|0|) = 0` — the decoded frame is shorter
than 128 samples, so every bin is NaN. -/
theorem c8_counterexample :
    processAudioData (some (List.replicate 8 0)) AMethod.rms
      ≠ .ok (List.replicate 128 (val (min 1 (2 * |(0 : ℝ)|)))) := by
  have hdec : decodeFrame (List.replicate 8 (0 : ℕ)) = List.replicate 2 (val 0) := by
    have h8 : (8 : ℕ) = 4 * 2 := by norm_num
    rw [h8, decodeFrame_replicate_zero]
  have hok : processAudioData (some (List.replicate 8 0)) AMethod.rms
      = .ok (processAudioDataRMS (List.replicate 2 (val 0))) := by
    rw [processAudioData_ok _ _ (by decide) (by decide), hdec]
  intro h
  rw [hok] at h
  injection h with h2
  have hL : (processAudioDataRMS (List.replicate 2 (val 0))).getD 0 (val 0) = nan := by
    simp only [processAudioDataRMS]
    rw [getD_map_range _ _ (by norm_num)]
    exact rmsBin_nan_of_empty _ 0 (endIdx_eq_startIdx_of_short 0 (by simp))
  rw [h2] at hL
  have hR : (List.replicate 128 (val (min 1 (2 * |(0 : ℝ)|)))).getD 0 (val 0)
      = val (min 1 (2 * |(0 : ℝ)|)) := rfl
  rw [hR] at hL
  exact JF.noConfusion hL

/-- C8 (amended): for a well-formed buffer (byte length a multiple of 4)
whose decoded frame has at least 128 samples, all equal to a constant `a`
with `|a| ≤ 1/2`, the RMS method returns 128 bins all equal to
`min(1, 2·|a|)`.  Frames shorter than 128 samples instead yield NaN bins,
and byte lengths that are not multiples of 4 raise a `RangeError`. -/
theorem c8_theorem (bytes : List ℕ) (a : ℝ) (ha : |a| ≤ 1 / 2)
    (hmod : bytes.length % 4 = 0)
    (hconst : ∀ s ∈ decodeFrame bytes, s = val a)
    (hn : 128 ≤ (decodeFrame bytes).length) :
    processAudioData (some bytes) AMethod.rms
      = .ok (List.replicate 128 (val (min 1 (2 * |a|)))) := by
  have hne : bytes.length ≠ 0 := by
    intro h0
    have hb : bytes = [] := List.length_eq_zero.mp h0
    rw [hb] at hn
    have hnil : decodeFrame ([] : List ℕ) = [] := rfl
    rw [hnil] at hn
    simp at hn
  rw [processAudioData_ok bytes AMethod.rms hne hmod]
  exact congrArg Except.ok (rms_const_frame _ a hconst hn)

/-- C8 (witness): the amended statement applied to the all-zero 512-byte
buffer, which decodes to 128 samples equal to `0`. -/
theorem c8_witness :
    |(0 : ℝ)| ≤ 1 / 2 ∧ (List.replicate 512 (0 : ℕ)).length % 4 = 0 ∧
      (∀ s ∈ decodeFrame (List.replicate 512 (0 : ℕ)), s = val 0) ∧
      128 ≤ (decodeFrame (List.replicate 512 (0 : ℕ))).length ∧
      processAudioData (some (List.replicate 512 0)) AMethod.rms
        = .ok (List.replicate 128 (val (min 1 (2 * |(0 : ℝ)|)))) := by
  have hdec : decodeFrame (List.replicate 512 (0 : ℕ)) = List.replicate 128 (val 0) := by
    have h512 : (512 : ℕ) = 4 * 128 := by norm_num
    rw [h512, decodeFrame_replicate_zero]
  have hconst : ∀ s ∈ decodeFrame (List.replicate 512 (0 : ℕ)), s = val 0 := by
    rw [hdec]
    intro s hs
    exact List.eq_of_mem_replicate hs
  have hn : 128 ≤ (decodeFrame (List.replicate 512 (0 : ℕ))).length := by
    rw [hdec, List.length_replicate]
  exact ⟨by norm_num, by decide, hconst, hn, c8_theorem _ 0 (by norm_num) (by decide) hconst hn⟩

/-!
FFT path: the windowed transform input (claim C9).
-/

theorem windowedInput_apply (f : List JF) (i : ℕ) :
    windowedInput f i
      = if i < 256 then jmul (paddedInput f i) (val (hann i)) else paddedInput f i :=
  foldl_update_apply (fun j x => jmul x (val (hann j))) (paddedInput f) 256 i

/-- C9: the transform input is exactly the first 256 decoded samples
(zero-padded when fewer than 256 exist), each multiplied in place by the
Hann coefficient `0.5·(1 − cos(2π·i/256))`, paired with zero-initialized
imaginary values.  `initState f` is the state handed to the transform inside
the FFT path. -/
theorem c9_theorem (f : List JF) (i : ℕ) (hi : i < 256) :
    (initState f).re i
        = jmul (if i < f.length then f.getD i nan else val 0)
            (val (0.5 * (1 - Real.cos (2 * Real.pi * i / 256)))) ∧
      (initState f).im i = val 0 := by
  constructor
  · show windowedInput f i = _
    rw [windowedInput_apply, if_pos hi]
    congr 1
    simp only [paddedInput, if_pos hi]
  · rfl

/-- C9 (witness): the theorem applied to the empty frame at index 0. -/
theorem c9_witness :
    (0 : ℕ) < 256 ∧
      ((initState ([] : List JF)).re 0
          = jmul (if 0 < ([] : List JF).length then ([] : List JF).getD 0 nan else val 0)
              (val (0.5 * (1 - Real.cos (2 * Real.pi * (0 : ℕ) / 256)))) ∧
        (initState ([] : List JF)).im 0 = val 0) :=
  ⟨by norm_num, c9_theorem [] 0 (by norm_num)⟩

/-!
Finiteness is preserved by every stage of the transform.
-/

/-- All entries of both working arrays are finite values. -/
def AllVal (st : FState) : Prop := ∀ i, isVal (st.re i) ∧ isVal (st.im i)

theorem isVal_jadd {a b : JF} (ha : isVal a) (hb : isVal b) : isVal (jadd a b) := by
  obtain ⟨x, rfl⟩ := (isVal_iff a).mp ha
  obtain ⟨y, rfl⟩ := (isVal_iff b).mp hb
  rw [jadd_val_val]
  exact isVal_val _

theorem isVal_jsub {a b : JF} (ha : isVal a) (hb : isVal b) : isVal (jsub a b) := by
  obtain ⟨x, rfl⟩ := (isVal_iff a).mp ha
  obtain ⟨y, rfl⟩ := (isVal_iff b).mp hb
  rw [jsub_val_val]
  exact isVal_val _

theorem isVal_jmul {a b : JF} (ha : isVal a) (hb : isVal b) : isVal (jmul a b) := by
  obtain ⟨x, rfl⟩ := (isVal_iff a).mp ha
  obtain ⟨y, rfl⟩ := (isVal_iff b).mp hb
  rw [jmul_val_val]
  exact isVal_val _

theorem isVal_jneg {a : JF} (ha : isVal a) : isVal (jneg a) := by
  obtain ⟨x, rfl⟩ := (isVal_iff a).mp ha
  rw [jneg_val]
  exact isVal_val _

theorem isVal_update {a : ℕ → JF} (h : ∀ i, isVal (a i)) {v : JF} (hv : isVal v)
    (p i : ℕ) : isVal (Function.update a p v i) := by
  rw [Function.update_apply]
  split_ifs
  · exact hv
  · exact h i

theorem isVal_updSwap {a : ℕ → JF} (h : ∀ i, isVal (a i)) (p q i : ℕ) :
    isVal (updSwap a p q i) := by
  simp only [updSwap, Function.update_apply]
  split_ifs <;> apply h

theorem allVal_bitrevStep (n : ℕ) {s : FState × ℕ} (h : AllVal s.1) (i : ℕ) :
    AllVal (bitrevStep n s i).1 := by
  simp only [bitrevStep]
  by_cases hij : i < s.2
  · simp only [if_pos hij]
    intro t
    exact ⟨isVal_updSwap (fun u => (h u).1) _ _ t, isVal_updSwap (fun u => (h u).2) _ _ t⟩
  · simp only [if_neg hij]
    exact h

theorem allVal_bitrev (n : ℕ) {st : FState} (h : AllVal st) : AllVal (bitrev n st) := by
  exact foldl_preserve (fun s : FState × ℕ => AllVal s.1) (bitrevStep n)
    (fun s a hs => allVal_bitrevStep n hs a) (List.range (n - 1)) (st, 0) h

theorem allVal_bflyOp (half : ℕ) {st : FState} (h : AllVal st) (j k : ℕ) :
    AllVal (bflyOp half st j k) := by
  have hre : ∀ t, isVal (st.re t) := fun t => (h t).1
  have him : ∀ t, isVal (st.im t) := fun t => (h t).2
  simp only [bflyOp]
  intro i
  constructor
  · apply isVal_update
    · apply isVal_update hre
      apply isVal_jsub (hre j)
      exact isVal_jadd (isVal_jmul (hre _) (isVal_val _)) (isVal_jmul (him _) (isVal_val _))
    · apply isVal_jadd (hre j)
      exact isVal_jadd (isVal_jmul (hre _) (isVal_val _)) (isVal_jmul (him _) (isVal_val _))
  · apply isVal_update
    · apply isVal_update him
      apply isVal_jsub (him j)
      exact isVal_jadd (isVal_jmul (isVal_jneg (hre _)) (isVal_val _))
        (isVal_jmul (him _) (isVal_val _))
    · apply isVal_jadd (him j)
      exact isVal_jadd (isVal_jmul (isVal_jneg (hre _)) (isVal_val _))
        (isVal_jmul (him _) (isVal_val _))

theorem allVal_bflyPass (n size : ℕ) {st : FState} (h : AllVal st) :
    AllVal (bflyPass n size st) := by
  apply foldl_preserve AllVal _ ?_ _ _ h
  intro s i hs
  apply foldl_preserve AllVal _ ?_ _ _ hs
  intro s2 k hs2
  exact allVal_bflyOp _ hs2 _ _

theorem allVal_fftRun (n : ℕ) {st : FState} (h : AllVal st) : AllVal (fftRun n st) := by
  apply foldl_preserve AllVal _ ?_ _ _ (allVal_bitrev n h)
  intro s size hs
  exact allVal_bflyPass _ _ hs

theorem allVal_initState (f : List JF) (hf : ∀ s ∈ f, isVal s) : AllVal (initState f) := by
  intro i
  constructor
  · show isVal (windowedInput f i)
    rw [windowedInput_apply]
    have hp : isVal (paddedInput f i) := by
      simp only [paddedInput]
      split_ifs with h1 h2
      · rw [List.getD_eq_getElem f nan h2]
        exact hf _ (List.getElem_mem h2)
      · exact isVal_val 0
      · exact isVal_val 0
    split_ifs
    · exact isVal_jmul hp (isVal_val _)
    · exact hp
  · exact isVal_val 0

theorem fftMags_val (f : List JF) (hf : ∀ s ∈ f, isVal s) (i : ℕ) :
    ∃ x, fftMags f i = val x ∧ 0 ≤ x := by
  have hst := allVal_fftRun 256 (allVal_initState f hf)
  simp only [fftMags]
  obtain ⟨p, hp⟩ := (isVal_iff _).mp (hst i).1
  obtain ⟨q, hq⟩ := (isVal_iff _).mp (hst i).2
  rw [hp, hq, jmul_val_val, jmul_val_val, jadd_val_val,
    jsqrt_val_nonneg _ (add_nonneg (mul_self_nonneg p) (mul_self_nonneg q))]
  exact ⟨_, rfl, Real.sqrt_nonneg _⟩

/-!
Zero frames pass through the transform unchanged (all magnitudes are 0),
giving a concrete evaluation of the FFT path on the empty frame.
-/

/-- All entries of both working arrays are the value `0`. -/
def AllZero (st : FState) : Prop := ∀ i, st.re i = val 0 ∧ st.im i = val 0

theorem zero_updSwap {a : ℕ → JF} (h : ∀ i, a i = val 0) (p q i : ℕ) :
    updSwap a p q i = val 0 := by
  simp only [updSwap, Function.update_apply]
  split_ifs <;> apply h

theorem zero_bitrevStep (n : ℕ) {s : FState × ℕ} (h : AllZero s.1) (i : ℕ) :
    AllZero (bitrevStep n s i).1 := by
  simp only [bitrevStep]
  by_cases hij : i < s.2
  · simp only [if_pos hij]
    intro t
    exact ⟨zero_updSwap (fun u => (h u).1) _ _ t, zero_updSwap (fun u => (h u).2) _ _ t⟩
  · simp only [if_neg hij]
    exact h

theorem zero_bflyOp (half : ℕ) {st : FState} (h : AllZero st) (j k : ℕ) :
    AllZero (bflyOp half st j k) := by
  have hre : ∀ t, st.re t = val 0 := fun t => (h t).1
  have him : ∀ t, st.im t = val 0 := fun t => (h t).2
  simp only [bflyOp]
  intro i
  constructor <;>
    · simp only [Function.update_apply]
      split_ifs <;> simp [hre, him]

theorem zero_fftRun {st : FState} (h : AllZero st) : AllZero (fftRun 256 st) := by
  apply foldl_preserve AllZero _ ?_ _ _ ?_
  · intro s size hs
    apply foldl_preserve AllZero _ ?_ _ _ hs
    intro s1 i hs1
    apply foldl_preserve AllZero _ ?_ _ _ hs1
    intro s2 k hs2
    exact zero_bflyOp _ hs2 _ _
  · exact foldl_preserve (fun s : FState × ℕ => AllZero s.1) _
      (fun s a hs => zero_bitrevStep _ hs a) _ (st, 0) h

theorem zero_initState_nil : AllZero (initState ([] : List JF)) := by
  intro i
  refine ⟨?_, rfl⟩
  show windowedInput [] i = val 0
  rw [windowedInput_apply]
  have hp : paddedInput [] i = val 0 := by
    simp [paddedInput]
  rw [hp]
  split_ifs
  · rw [jmul_val_val]
    norm_num
  · rfl

theorem fftMags_nil (i : ℕ) : fftMags [] i = val 0 := by
  have h0 := zero_fftRun zero_initState_nil
  simp only [fftMags]
  rw [(h0 i).1, (h0 i).2, jmul_val_val, jadd_val_val,
    show (0 : ℝ) * 0 + 0 * 0 = 0 by norm_num,
    jsqrt_val_nonneg 0 le_rfl, Real.sqrt_zero]

/-!
Claim C7: the logarithmic bin regrouping formula.
-/

/-- Start index of output bin `i` in closed ℕ form:
`floor((i/128)²·128) = i²/128`. -/
theorem binStart_eq (i : ℕ) : binStart i = i * i / 128 := by
  simp only [binStart]
  have h : ((i : ℝ) / 128) ^ 2 * 128 = ((i * i : ℕ) : ℝ) / ((128 : ℕ) : ℝ) := by
    push_cast
    field_simp
    ring
  rw [h, Nat.floor_div_nat, Nat.floor_natCast]

/-- End index of output bin `i` in closed ℕ form. -/
theorem binEnd_eq (i : ℕ) : binEnd i = (i + 1) * (i + 1) / 128 := by
  simp only [binEnd]
  have h : (((i : ℝ) + 1) / 128) ^ 2 * 128 = (((i + 1) * (i + 1) : ℕ) : ℝ) / ((128 : ℕ) : ℝ) := by
    push_cast
    field_simp
    ring
  rw [h, Nat.floor_div_nat, Nat.floor_natCast]

/-- C7: in the FFT path, output bin `i` equals `min(1, 4·m)` where `m` is
the arithmetic mean of the raw magnitudes over the index range
`[binStart i, min(binEnd i, 128))`, and equals `0` when that range is empty
(with `binStart = floor((i/128)²·128)` and `binEnd = floor(((i+1)/128)²·128)`,
the definitions in this file). -/
theorem c7_theorem (f : List JF) (m : ℕ → ℝ) (i : ℕ) (hi : i < 128)
    (hm : ∀ j, j < 128 → fftMags f j = val (m j)) :
    (processAudioDataFFT f).getD i nan =
      (if min (binEnd i) 128 ≤ binStart i then val 0
       else val (min 1
          ((((List.range' (binStart i) (min (binEnd i) 128 - binStart i)).map m).sum
            / ((min (binEnd i) 128 - binStart i : ℕ) : ℝ)) * 4))) := by
  simp only [processAudioDataFFT]
  rw [getD_map_range _ _ hi]
  simp only [fftBinValue]
  have hsum : (List.range' (binStart i) (min (binEnd i) 128 - binStart i)).foldl
      (fun a j => jadd a (fftMags f j)) (val 0)
      = val (0 + ((List.range' (binStart i) (min (binEnd i) 128 - binStart i)).map m).sum) := by
    apply foldl_jadd_exact
    intro j hj
    have hj2 := List.mem_range'_1.mp hj
    have hmin : min (binEnd i) 128 ≤ 128 := min_le_right _ _
    exact hm j (by omega)
  by_cases hc : min (binEnd i) 128 ≤ binStart i
  · have h0 : min (binEnd i) 128 - binStart i = 0 := Nat.sub_eq_zero_of_le hc
    rw [h0]
    simp only [lt_self_iff_false, if_false, if_pos hc]
    rw [jmul_val_val, jmin_val_val]
    norm_num
  · have hlt : binStart i < min (binEnd i) 128 := not_le.mp hc
    have hpos : 0 < min (binEnd i) 128 - binStart i := by omega
    rw [if_neg hc, if_pos hpos, hsum, zero_add,
      jdiv_val_val_ne _ _ (Nat.cast_ne_zero.mpr (Nat.pos_iff_ne_zero.mp hpos)),
      jmul_val_val, jmin_val_val]

/-- C7 (witness): the theorem applied to the empty frame (whose magnitudes
are all `0`) at bin 0, whose regrouping range is empty. -/
theorem c7_witness :
    (0 : ℕ) < 128 ∧
      (processAudioDataFFT []).getD 0 nan =
        (if min (binEnd 0) 128 ≤ binStart 0 then val 0
         else val (min 1
            ((((List.range' (binStart 0) (min (binEnd 0) 128 - binStart 0)).map
                  (fun _ => (0 : ℝ))).sum
              / ((min (binEnd 0) 128 - binStart 0 : ℕ) : ℝ)) * 4))) :=
  ⟨by norm_num, c7_theorem [] (fun _ => 0) 0 (by norm_num) (fun j _ => fftMags_nil j)⟩

/-!
Claim C1: the range invariant.
-/

theorem rmsBin_unit (f : List JF) (hf : ∀ s ∈ f, isVal s) (hn : 128 ≤ f.length)
    (i : ℕ) (hi : i < 128) : isUnitVal (rmsBin f i) := by
  have hspb : 0 < samplesPerBin f.length := by
    simp only [samplesPerBin]
    exact Nat.div_pos hn (by norm_num)
  have hbound := succ_mul_spb_le f.length i hi
  have he : endIdx f.length i = startIdx f.length i + samplesPerBin f.length :=
    endIdx_eq_of_le i hi
  have hsum : ∃ S, segSum f (startIdx f.length i) (endIdx f.length i) = val S ∧ 0 ≤ S := by
    simp only [segSum]
    apply foldl_jadd_val_nonneg _ _ 0 le_rfl
    intro j hj
    have hj2 := List.mem_range'_1.mp hj
    have hjlt : j < f.length := by
      have hsi : startIdx f.length i = i * samplesPerBin f.length := rfl
      omega
    have hval : isVal (f.getD j nan) := by
      rw [List.getD_eq_getElem f nan hjlt]
      exact hf _ (List.getElem_mem hjlt)
    obtain ⟨x, hx⟩ := (isVal_iff (f.getD j nan)).mp hval
    exact ⟨x * x, by rw [hx, jmul_val_val], mul_self_nonneg x⟩
  obtain ⟨S, hS, hS0⟩ := hsum
  simp only [rmsBin]
  rw [hS, he, jsub_val_val]
  have hcast : ((startIdx f.length i + samplesPerBin f.length : ℕ) : ℝ)
      - ((startIdx f.length i : ℕ) : ℝ) = ((samplesPerBin f.length : ℕ) : ℝ) := by
    push_cast
    ring
  rw [hcast]
  have hden0 : (0 : ℝ) < ((samplesPerBin f.length : ℕ) : ℝ) := by exact_mod_cast hspb
  rw [jdiv_val_val_ne _ _ (ne_of_gt hden0),
    jsqrt_val_nonneg _ (div_nonneg hS0 (le_of_lt hden0)),
    jmul_val_val, jmin_val_val]
  have hr : 0 ≤ Real.sqrt (S / ((samplesPerBin f.length : ℕ) : ℝ)) * 2 :=
    mul_nonneg (Real.sqrt_nonneg _) (by norm_num)
  exact isUnitVal_val (le_min zero_le_one hr) (min_le_left _ _)

theorem fftBinValue_unit (mag : ℕ → JF) (hmag : ∀ j, ∃ x, mag j = val x ∧ 0 ≤ x)
    (i : ℕ) : isUnitVal (fftBinValue mag i) := by
  simp only [fftBinValue]
  obtain ⟨S, hS, hS0⟩ := foldl_jadd_val_nonneg mag
    (List.range' (binStart i) (min (binEnd i) 128 - binStart i)) 0 le_rfl
    (fun j _ => hmag j)
  rw [hS]
  by_cases hc : 0 < min (binEnd i) 128 - binStart i
  · rw [if_pos hc, jdiv_val_val_ne _ _ (Nat.cast_ne_zero.mpr (Nat.pos_iff_ne_zero.mp hc)),
      jmul_val_val, jmin_val_val]
    have h4 : 0 ≤ S / ((min (binEnd i) 128 - binStart i : ℕ) : ℝ) * 4 :=
      mul_nonneg (div_nonneg hS0 (Nat.cast_nonneg _)) (by norm_num)
    exact isUnitVal_val (le_min zero_le_one h4) (min_le_left _ _)
  · rw [if_neg hc, jmul_val_val, jmin_val_val]
    exact isUnitVal_val (le_min zero_le_one (by norm_num)) (min_le_left _ _)

theorem fft_path_unit (f : List JF) (hf : ∀ s ∈ f, isVal s) :
    ∀ x ∈ processAudioDataFFT f, isUnitVal x := by
  intro x hx
  simp only [processAudioDataFFT, List.mem_map, List.mem_range] at hx
  obtain ⟨i, hi, rfl⟩ := hx
  exact fftBinValue_unit _ (fftMags_val f hf) i

theorem rms_path_unit (f : List JF) (hf : ∀ s ∈ f, isVal s) (hn : 128 ≤ f.length) :
    ∀ x ∈ processAudioDataRMS f, isUnitVal x := by
  intro x hx
  simp only [processAudioDataRMS, List.mem_map, List.mem_range] at hx
  obtain ⟨i, hi, rfl⟩ := hx
  exact rmsBin_unit f hf hn i hi

theorem decodeFrame_four_zero : decodeFrame [0, 0, 0, 0] = [val 0] := by
  show decodeFloat32 0 0 0 0 :: decodeFrame [] = [val 0]
  rw [decodeFloat32_zero]
  rfl

/-- C1 (counterexample): on the 4-byte all-zero buffer the RMS method
returns a vector whose first element is NaN, which does not lie in `[0, 1]`:
the decoded frame has one sample, so `samplesPerBin = 0`, every segment is
empty and every bin evaluates `Math.min(1, Math.sqrt(0/0) * 2) = NaN`. -/
theorem c1_counterexample :
    processAudioData (some [0, 0, 0, 0]) AMethod.rms
        = .ok (processAudioDataRMS (decodeFrame [0, 0, 0, 0])) ∧
      (processAudioDataRMS (decodeFrame [0, 0, 0, 0])).getD 0 (val 0) = nan ∧
      ¬ isUnitVal nan := by
  refine ⟨processAudioData_ok _ _ (by decide) (by decide), ?_, not_isUnitVal_nan⟩
  rw [decodeFrame_four_zero]
  simp only [processAudioDataRMS]
  rw [getD_map_range _ _ (by norm_num)]
  exact rmsBin_nan_of_empty _ 0 (by decide)

/-- C1 (amended): when `processAudioData` returns a vector, every element of
it lies in `[0, 1]` provided every decoded sample is a finite value (no NaN
or infinity bit patterns) and, under the RMS method, the decoded frame has
at least 128 samples (or the buffer is empty).  Without those provisos bins
can be NaN: RMS frames shorter than 128 samples divide 0 by 0, and NaN or
infinite decoded samples propagate into the output. -/
theorem c1_theorem (bytes : List ℕ) (m : AMethod) (v : List JF)
    (hok : processAudioData (some bytes) m = .ok v)
    (hfin : ∀ s ∈ decodeFrame bytes, isVal s)
    (hrms : m = AMethod.rms → 128 ≤ (decodeFrame bytes).length ∨ bytes = []) :
    ∀ x ∈ v, isUnitVal x := by
  by_cases hne : bytes.length = 0
  · have hempty : processAudioData (some bytes) m = .ok [] := by
      simp only [processAudioData, if_pos hne]
    rw [hempty] at hok
    injection hok with h2
    rw [← h2]
    intro x hx
    exact absurd hx (List.not_mem_nil x)
  · by_cases hmod : bytes.length % 4 = 0
    · rw [processAudioData_ok bytes m hne hmod] at hok
      injection hok with h2
      rw [← h2]
      cases m with
      | fft => exact fft_path_unit _ hfin
      | rms =>
          rcases hrms rfl with hn | hb
          · exact rms_path_unit _ hfin hn
          · exfalso
            apply hne
            rw [hb]
            rfl
    · have herr : processAudioData (some bytes) m = .error JsError.rangeError := by
        simp only [processAudioData, if_neg hne]
        rw [if_pos hmod]
      rw [herr] at hok
      exact Except.noConfusion hok

/-- C1 (witness): the amended statement applied to the 4-byte zero buffer
under the FFT method, whose single decoded sample is the finite value `0`. -/
theorem c1_witness :
    (∀ s ∈ decodeFrame [0, 0, 0, 0], isVal s) ∧
      ∀ x ∈ processAudioDataFFT (decodeFrame [0, 0, 0, 0]), isUnitVal x := by
  have hfin : ∀ s ∈ decodeFrame [0, 0, 0, 0], isVal s := by
    rw [decodeFrame_four_zero]
    intro s hs
    rw [List.mem_singleton.mp hs]
    exact isVal_val 0
  exact ⟨hfin, c1_theorem [0, 0, 0, 0] AMethod.fft _
    (processAudioData_ok _ _ (by decide) (by decide)) hfin
    (fun h => AMethod.noConfusion h)⟩

end FlowThing

end
